import Mathlib

/-!
Verification development for the facade and call-dispatch core of a
persistent source-code symbol index (lib/Index/IndexSystem.cpp).

The data model (symbols, occurrences, roles, relations) and the algorithms
(`foreachSymbolCallOccurrence`, the transitive-closure subroutines
`getBaseMethodsOrClassesImpl` / `getAllRelatedOccursImpl`, the async
delegate's `unitIsOutOfDate`, and the path-canonicalizing facade queries)
are shallowly embedded as executable Lean functions.  Receiver callbacks
are modelled as `α → Bool` functions; every `foreach` operation returns
the pair (completed-without-early-termination flag, sequence of values the
receiver was invoked on, in order).  The unbounded C++ recursion of the
closure subroutines is embedded with explicit fuel returning `Option`
(`none` = fuel exhausted); a fuel bound sufficient for every finite index
is proved below.
-/

namespace IndexStoreDB

/-- Symbol kinds used by the call-dispatch core; all other kinds of the
source enumeration are opaque to this layer and collapsed into `unknown`. -/
inductive SymbolKind where
  | instanceMethod
  | protocol
  | extension
  | cls
  | unknown
deriving DecidableEq, Repr

/-- Symbol roles used by the call-dispatch core (occurrence roles and
relation roles live in the same enumeration, as in the source). -/
inductive SymbolRole where
  | call
  | dynamic
  | definition
  | relationOverrideOf
  | relationBaseOf
  | relationReceivedBy
  | relationChildOf
  | relationExtendedBy
deriving DecidableEq, Repr

/-- A symbol: USR (globally unique identifier string), kind, and the
`isCallable()` predicate as a field. -/
structure Symbol where
  usr : String
  kind : SymbolKind
  callable : Bool
deriving DecidableEq, Repr

/-- One related-symbol entry of an occurrence: the relation's role set and
the related symbol. -/
structure SymbolRelation where
  roles : List SymbolRole
  symbol : Symbol
deriving DecidableEq, Repr

/-- An occurrence of a symbol: the symbol, the occurrence's role set, and
its related symbols (each with relation roles). -/
structure SymbolOccurrence where
  symbol : Symbol
  roles : List SymbolRole
  relations : List SymbolRelation
deriving DecidableEq, Repr

/-- `SymbolRoleSet.containsAny`: the role set `roles` has at least one of
the roles in `set`. -/
def containsAnyRole (roles : List SymbolRole) (set : List SymbolRole) : Bool :=
  roles.any (fun r => set.contains r)

/-- `SymbolOccurrence::foreachRelatedSymbol(role)`: the related symbols
whose relation roles contain `role`, in relation order. -/
def relatedSymbols (o : SymbolOccurrence) (role : SymbolRole) : List Symbol :=
  (o.relations.filter (fun rel => rel.roles.contains role)).map (fun rel => rel.symbol)

/-- The symbol sub-index state: the finite collection of symbol
occurrences it stores, in enumeration order. -/
structure Index where
  occurrences : List SymbolOccurrence
deriving Repr

/-- Modelled from the spec: `SymbolIndex.foreachSymbolOccurrenceByUSR`
(an external collaborator of the facade) enumerates the occurrences of
the symbol with the given USR whose role set intersects `roleSet`. -/
def symOccsByUSR (idx : Index) (usr : String) (roleSet : List SymbolRole) :
    List SymbolOccurrence :=
  idx.occurrences.filter
    (fun o => o.symbol.usr == usr && containsAnyRole o.roles roleSet)

/-- Modelled from the spec: `SymbolIndex.foreachRelatedSymbolOccurrenceByUSR`
(an external collaborator of the facade) enumerates the occurrences having
a related symbol with the given USR under a relation role in `roleSet`. -/
def relOccsByUSR (idx : Index) (usr : String) (roleSet : List SymbolRole) :
    List SymbolOccurrence :=
  idx.occurrences.filter
    (fun o => o.relations.any
      (fun rel => rel.symbol.usr == usr && containsAnyRole rel.roles roleSet))

/-- `containsSymWithUSR`: some symbol in `syms` has the same USR as `sym`. -/
def containsSymWithUSR (sym : Symbol) (syms : List Symbol) : Bool :=
  syms.any (fun s => s.usr == sym.usr)

/-- Receiver-driven enumeration: invoke `recv` on each element in order,
stopping as soon as it returns `false`.  Returns the pair (completed
without early termination, list of elements the receiver was invoked on). -/
def runReceiver {α : Type} (recv : α → Bool) : List α → Bool × List α
  | [] => (true, [])
  | o :: os =>
    if recv o then
      let r := runReceiver recv os
      (r.1, o :: r.2)
    else (false, [o])

/-- The candidate symbols one expansion step of `getBaseMethodsOrClassesImpl`
yields for `sym`: for instance methods, the related symbols under
`RelationOverrideOf` of each occurrence of `sym.usr` with that role;
otherwise the symbols of the occurrences related to `sym.usr` under
`RelationBaseOf`. -/
def candidatesFor (idx : Index) (sym : Symbol) : List Symbol :=
  if sym.kind == SymbolKind.instanceMethod then
    (symOccsByUSR idx sym.usr [SymbolRole.relationOverrideOf]).flatMap
      (fun o => relatedSymbols o SymbolRole.relationOverrideOf)
  else
    (relOccsByUSR idx sym.usr [SymbolRole.relationBaseOf]).map
      (fun o => o.symbol)

/-- Fueled depth-first transitive closure with USR-keyed deduplication,
the common shape of `getBaseMethodsOrClassesImpl` and
`getAllRelatedOccursImpl`: each candidate of the current start whose key is
not already in the accumulated list is appended and recursed into.
`none` means the fuel ran out. -/
def closureFuel {σ τ : Type} (key : τ → String) (proj : τ → σ)
    (cand : σ → List τ) (fuel : Nat) (s : σ) (acc : List τ) :
    Option (List τ) :=
  match fuel with
  | 0 => none
  | f + 1 =>
    (cand s).foldlM (fun a c =>
      if a.any (fun x => key x == key c) then some a
      else closureFuel key proj cand f (proj c) (a ++ [c])) acc

/-- The USRs of every symbol the index can ever yield as a closure
candidate: each occurrence's own symbol and all of its related symbols. -/
def candUniverse (idx : Index) : List String :=
  idx.occurrences.flatMap
    (fun o => o.symbol.usr :: o.relations.map (fun rel => rel.symbol.usr))

/-- Fuel that suffices for every closure run over `idx` (proved below). -/
def bound (idx : Index) : Nat := (candUniverse idx).dedup.length + 1

/-- `getBaseMethodsOrClassesImpl` with explicit fuel: accumulate into `acc`
the transitive override/base closure of `sym`, deduplicated by USR. -/
def getBaseMethodsOrClassesFuel (idx : Index) (fuel : Nat) (sym : Symbol)
    (acc : List Symbol) : Option (List Symbol) :=
  closureFuel (fun s => s.usr) (fun s => s) (candidatesFor idx) fuel sym acc

/-- `getAllRelatedOccursImpl` with explicit fuel: accumulate the transitive
closure of occurrences related to `sym` under `roleSet`, deduplicated by
the USR of their symbol. -/
def getAllRelatedOccursFuel (idx : Index) (roleSet : List SymbolRole)
    (fuel : Nat) (sym : Symbol) (acc : List SymbolOccurrence) :
    Option (List SymbolOccurrence) :=
  closureFuel (fun o => o.symbol.usr) (fun o => o.symbol)
    (fun s => relOccsByUSR idx s.usr roleSet) fuel sym acc

/-- `IndexSystemImpl::getBaseMethodsOrClasses`: the public wrapper runs the
closure from an empty list. -/
def getBaseMethodsOrClasses (idx : Index) (sym : Symbol) : List Symbol :=
  (getBaseMethodsOrClassesFuel idx (bound idx) sym []).getD []

/-- The protocol fast-path's override closure, run from an empty list. -/
def getAllRelatedOccurs (idx : Index) (roleSet : List SymbolRole)
    (sym : Symbol) : List SymbolOccurrence :=
  (getAllRelatedOccursFuel idx roleSet (bound idx) sym []).getD []

/-- The relation used to collect the receiver-class set: `RelationReceivedBy`
when the callee occurrence has role `Call`, else `RelationChildOf`. -/
def relationToUse (callee : SymbolOccurrence) : SymbolRole :=
  if containsAnyRole callee.roles [SymbolRole.call] then
    SymbolRole.relationReceivedBy
  else SymbolRole.relationChildOf

/-- The receiver-class set before extension rewriting: the related symbols
of the callee occurrence under `relationToUse`. -/
def clsSymsRaw (callee : SymbolOccurrence) : List Symbol :=
  relatedSymbols callee (relationToUse callee)

/-- One step of extension rewriting: if `s` is an extension, enumerate the
occurrences related to `s.usr` under `RelationExtendedBy` with a receiver
that captures the occurrence's symbol and terminates the enumeration
(returns `false`) after the first hit; `s` is replaced by the captured
symbol, or kept if there was none. -/
def rewriteOne (idx : Index) (s : Symbol) : Symbol :=
  if s.kind == SymbolKind.extension then
    ((runReceiver (fun _ => false)
        (relOccsByUSR idx s.usr [SymbolRole.relationExtendedBy])).2).foldl
      (fun _ o => o.symbol) s
  else s

/-- The in-place rewriting loop over the receiver-class set. -/
def rewriteExtensions (idx : Index) : List Symbol → List Symbol
  | [] => []
  | s :: rest => rewriteOne idx s :: rewriteExtensions idx rest

/-- `ClassSyms`: for each receiver class, append its base closure (deduped
against what was already collected) and then the class itself (appended
unconditionally, as in the source). -/
def classSymsOf (idx : Index) (cls : List Symbol) : List Symbol :=
  cls.foldl
    (fun acc c => ((getBaseMethodsOrClassesFuel idx (bound idx) c acc).getD acc) ++ [c])
    []

/-- `PossiblyCalledViaDispatch` for one candidate call occurrence: the
occurrence has no `RelationReceivedBy` role (untyped receiver), or some
related symbol under `RelationReceivedBy` has its USR in `classSyms`. -/
def possiblyCalledViaDispatch (classSyms : List Symbol)
    (o : SymbolOccurrence) : Bool :=
  if !(o.roles.contains SymbolRole.relationReceivedBy) then true
  else (relatedSymbols o SymbolRole.relationReceivedBy).any
    (fun r => containsSymWithUSR r classSyms)

/-- The full admission filter of the general class-hierarchy path: the
occurrence has role `Dynamic` and passes `possiblyCalledViaDispatch`. -/
def admitOccur (classSyms : List Symbol) (o : SymbolOccurrence) : Bool :=
  containsAnyRole o.roles [SymbolRole.dynamic] &&
    possiblyCalledViaDispatch classSyms o

/-- The filtering receiver loop of the general class-hierarchy path over
the `Call`-role occurrences of one base method: non-admitted occurrences
are skipped without invoking the receiver; admitted ones are passed to it,
and its `false` terminates the whole enumeration. -/
def runFiltered (classSyms : List Symbol) (recv : SymbolOccurrence → Bool) :
    List SymbolOccurrence → Bool × List SymbolOccurrence
  | [] => (true, [])
  | o :: os =>
    if admitOccur classSyms o then
      if recv o then
        let r := runFiltered classSyms recv os
        (r.1, o :: r.2)
      else (false, [o])
    else runFiltered classSyms recv os

/-- The base-method loop of the general class-hierarchy path: for each base
method, enumerate its `Call` occurrences through the admission filter,
short-circuiting when the receiver terminates. -/
def runBaseMethods (idx : Index) (classSyms : List Symbol)
    (recv : SymbolOccurrence → Bool) :
    List Symbol → Bool × List SymbolOccurrence
  | [] => (true, [])
  | m :: ms =>
    match runFiltered classSyms recv (symOccsByUSR idx m.usr [SymbolRole.call]) with
    | (false, t) => (false, t)
    | (true, t) =>
      let r := runBaseMethods idx classSyms recv ms
      (r.1, t ++ r.2)

/-- The protocol fast-path loop: for each override occurrence, enumerate
the `Call` occurrences of its symbol, short-circuiting when the receiver
terminates. -/
def runCallsForEach (idx : Index) (recv : SymbolOccurrence → Bool) :
    List SymbolOccurrence → Bool × List SymbolOccurrence
  | [] => (true, [])
  | o :: os =>
    match runReceiver recv (symOccsByUSR idx o.symbol.usr [SymbolRole.call]) with
    | (false, t) => (false, t)
    | (true, t) =>
      let r := runCallsForEach idx recv os
      (r.1, t ++ r.2)

/-- The dynamic-dispatch phase of `foreachSymbolCallOccurrence`, applied to
the receiver-class set after extension rewriting: empty set means nothing
more to do; a protocol first element selects the override fan-out;
otherwise the general class-hierarchy walk runs. -/
def dispatchAfterRewrite (idx : Index) (callee : SymbolOccurrence)
    (recv : SymbolOccurrence → Bool) (clsSyms : List Symbol) :
    Bool × List SymbolOccurrence :=
  match clsSyms with
  | [] => (true, [])
  | c :: _ =>
    if c.kind == SymbolKind.protocol then
      runCallsForEach idx recv
        (getAllRelatedOccurs idx [SymbolRole.relationOverrideOf] callee.symbol)
    else
      runBaseMethods idx (classSymsOf idx clsSyms) recv
        (getBaseMethodsOrClasses idx callee.symbol)

/-- `IndexSystemImpl::foreachSymbolCallOccurrence`: non-callable callee
returns `false` immediately; direct `Call` occurrences go straight to the
receiver; a callee occurrence without role `Dynamic` stops there; otherwise
the dynamic-dispatch phase runs on the rewritten receiver-class set. -/
def foreachSymbolCallOccurrence (idx : Index) (callee : SymbolOccurrence)
    (recv : SymbolOccurrence → Bool) : Bool × List SymbolOccurrence :=
  if callee.symbol.callable then
    match runReceiver recv (symOccsByUSR idx callee.symbol.usr [SymbolRole.call]) with
    | (false, t1) => (false, t1)
    | (true, t1) =>
      if containsAnyRole callee.roles [SymbolRole.dynamic] then
        let r := dispatchAfterRewrite idx callee recv
          (rewriteExtensions idx (clsSymsRaw callee))
        (r.1, t1 ++ r.2)
      else (true, t1)
  else (false, [])

/-- A translation-unit descriptor as consumed by delegates. -/
structure StoreUnitInfo where
  unitName : String
  mainFilePath : String
deriving DecidableEq, Repr

/-- The polymorphic staleness hint: a stale dependent file, or a chain
link naming a unit and a nested hint. -/
inductive OutOfDateTriggerHint where
  | dependentFile (filePath : String)
  | dependentUnit (unitName : String) (dep : OutOfDateTriggerHint)
deriving DecidableEq, Repr

/-- One `unitIsOutOfDate` event with its arguments captured by value. -/
structure OutOfDateEvent where
  unitInfo : StoreUnitInfo
  outOfDateModTime : Nat
  hint : OutOfDateTriggerHint
  synchronous : Bool
deriving DecidableEq, Repr

/-- The async delegate wrapper's state: whether a user delegate was
supplied, and the serial work queue of pending `unitIsOutOfDate`
dispatches (FIFO, back = most recently enqueued). -/
structure AsyncIndexDelegate where
  hasOther : Bool
  queue : List OutOfDateEvent
deriving DecidableEq, Repr

/-- `AsyncIndexDelegate::unitIsOutOfDate`: with no user delegate, nothing
happens; with `synchronous` true the wrapped delegate is invoked inline
(first component: the inline invocations performed before the call
returns) and the queue is untouched; otherwise the event is appended to
the serial work queue and nothing runs inline. -/
def AsyncIndexDelegate.unitIsOutOfDate (d : AsyncIndexDelegate)
    (unitInfo : StoreUnitInfo) (outOfDateModTime : Nat)
    (hint : OutOfDateTriggerHint) (synchronous : Bool) :
    List OutOfDateEvent × AsyncIndexDelegate :=
  if !d.hasOther then ([], d)
  else if synchronous then
    ([⟨unitInfo, outOfDateModTime, hint, true⟩], d)
  else
    ([], { d with queue := d.queue ++ [⟨unitInfo, outOfDateModTime, hint, false⟩] })

/-- The path sub-index collaborator: canonicalization plus the queries the
facade forwards to, each keyed by an already-canonical path. -/
structure FilePathIndex where
  getCanonicalPath : String → String
  isKnownFileCanon : String → Bool
  mainUnitsCanon : String → List StoreUnitInfo
  includingCanon : String → List (String × Nat)
  includedByCanon : String → List (String × Nat)

/-- `IndexSystemImpl::isKnownFile`: canonicalize, then ask the path
sub-index. -/
def isKnownFile (pi : FilePathIndex) (filePath : String) : Bool :=
  pi.isKnownFileCanon (pi.getCanonicalPath filePath)

/-- `IndexSystemImpl::foreachMainUnitContainingFile`: canonicalize, then
enumerate the path sub-index's main units for the canonical path. -/
def foreachMainUnitContainingFile (pi : FilePathIndex) (filePath : String)
    (recv : StoreUnitInfo → Bool) : Bool × List StoreUnitInfo :=
  runReceiver recv (pi.mainUnitsCanon (pi.getCanonicalPath filePath))

/-- `IndexSystemImpl::foreachFileIncludingFile`: canonicalize the target,
then enumerate (source path, line) pairs. -/
def foreachFileIncludingFile (pi : FilePathIndex) (targetPath : String)
    (recv : String × Nat → Bool) : Bool × List (String × Nat) :=
  runReceiver recv (pi.includingCanon (pi.getCanonicalPath targetPath))

/-- `IndexSystemImpl::foreachFileIncludedByFile`: canonicalize the source,
then enumerate (target path, line) pairs. -/
def foreachFileIncludedByFile (pi : FilePathIndex) (sourcePath : String)
    (recv : String × Nat → Bool) : Bool × List (String × Nat) :=
  runReceiver recv (pi.includedByCanon (pi.getCanonicalPath sourcePath))

/-! ### Concrete example data used to instantiate the theorems -/

/-- A callable instance method `m`. -/
def mSym : Symbol := ⟨"c:m", SymbolKind.instanceMethod, true⟩

/-- A class `D`. -/
def dSym : Symbol := ⟨"c:D", SymbolKind.cls, false⟩

/-- A protocol `P`. -/
def pSym : Symbol := ⟨"c:P", SymbolKind.protocol, false⟩

/-- A callable instance method `m1` that overrides `m`. -/
def m1Sym : Symbol := ⟨"c:m1", SymbolKind.instanceMethod, true⟩

/-- A non-callable symbol. -/
def gSym : Symbol := ⟨"c:g", SymbolKind.unknown, false⟩

/-- A static call of `m`. -/
def occA : SymbolOccurrence := ⟨mSym, [SymbolRole.call], []⟩

/-- A dynamic call of `m` received by class `D`. -/
def occB : SymbolOccurrence :=
  ⟨mSym, [SymbolRole.call, SymbolRole.dynamic],
   [⟨[SymbolRole.relationReceivedBy], dSym⟩]⟩

/-- A dynamic call of `m` received by protocol `P`. -/
def occC : SymbolOccurrence :=
  ⟨mSym, [SymbolRole.call, SymbolRole.dynamic],
   [⟨[SymbolRole.relationReceivedBy], pSym⟩]⟩

/-- The definition of `m1`, related to `m` by `RelationOverrideOf`. -/
def occOv : SymbolOccurrence :=
  ⟨m1Sym, [SymbolRole.definition], [⟨[SymbolRole.relationOverrideOf], mSym⟩]⟩

/-- A static call of `m1`. -/
def occD : SymbolOccurrence := ⟨m1Sym, [SymbolRole.call], []⟩

/-- A dynamic call of `m` with no receiver relation. -/
def occNoRecv : SymbolOccurrence :=
  ⟨mSym, [SymbolRole.call, SymbolRole.dynamic], []⟩

/-- A callee occurrence of the non-callable symbol. -/
def occG : SymbolOccurrence := ⟨gSym, [SymbolRole.call], []⟩

/-- The example index: calls of `m` and `m1`, and the override relation
between them. -/
def exIdx : Index := ⟨[occA, occB, occC, occOv, occD]⟩

/-- An extension symbol extending the type `T`. -/
def extSym : Symbol := ⟨"c:extT", SymbolKind.extension, false⟩

/-- The extended type `T`. -/
def tSym : Symbol := ⟨"c:T", SymbolKind.cls, false⟩

/-- The definition occurrence of `T`, related to the extension by
`RelationExtendedBy`. -/
def occT : SymbolOccurrence :=
  ⟨tSym, [SymbolRole.definition], [⟨[SymbolRole.relationExtendedBy], extSym⟩]⟩

/-- An index recording that the extension extends `T`. -/
def extIdx : Index := ⟨[occT]⟩

/-- A callable instance method `m2`. -/
def m2Sym : Symbol := ⟨"c:m2", SymbolKind.instanceMethod, true⟩

/-- A callable instance method `m3`. -/
def m3Sym : Symbol := ⟨"c:m3", SymbolKind.instanceMethod, true⟩

/-- An occurrence recording that `m` overrides `m1`. -/
def chainOcc1 : SymbolOccurrence :=
  ⟨mSym, [SymbolRole.relationOverrideOf],
   [⟨[SymbolRole.relationOverrideOf], m1Sym⟩]⟩

/-- An occurrence recording that `m1` overrides `m2`. -/
def chainOcc2 : SymbolOccurrence :=
  ⟨m1Sym, [SymbolRole.relationOverrideOf],
   [⟨[SymbolRole.relationOverrideOf], m2Sym⟩]⟩

/-- An occurrence recording that `m3` overrides `m`: the index mentions
`m` as an override target, but not on any chain expanding from `m`. -/
def chainOcc3 : SymbolOccurrence :=
  ⟨m3Sym, [SymbolRole.relationOverrideOf],
   [⟨[SymbolRole.relationOverrideOf], mSym⟩]⟩

/-- An acyclic override index: `m` overrides `m1` overrides `m2`, and a
separate method `m3` overrides `m`. -/
def chainIdx : Index := ⟨[chainOcc1, chainOcc2, chainOcc3]⟩

/-- An occurrence of `m` declaring `m` to override `m1`. -/
def cycOcc1 : SymbolOccurrence :=
  ⟨mSym, [SymbolRole.relationOverrideOf],
   [⟨[SymbolRole.relationOverrideOf], m1Sym⟩]⟩

/-- An occurrence of `m1` declaring `m1` to override `m`. -/
def cycOcc2 : SymbolOccurrence :=
  ⟨m1Sym, [SymbolRole.relationOverrideOf],
   [⟨[SymbolRole.relationOverrideOf], mSym⟩]⟩

/-- An index whose override relation has a two-element cycle through `m`
and `m1`. -/
def cycIdx : Index := ⟨[cycOcc1, cycOcc2]⟩

/-- An example path sub-index that canonicalizes every spelling to the
same path. -/
def exPathIndex : FilePathIndex :=
  ⟨fun _ => "/src/a.h", fun p => p == "/src/a.h",
   fun _ => [⟨"unitA", "/src/a.c"⟩], fun _ => [("/src/b.c", 3)],
   fun _ => [("/src/c.h", 7)]⟩

/-- An example async delegate wrapper with a user delegate and an empty
queue. -/
def exDelegate : AsyncIndexDelegate := ⟨true, []⟩

/-- An example staleness hint. -/
def exHint : OutOfDateTriggerHint := OutOfDateTriggerHint.dependentFile "/src/a.c"

/-- An example unit descriptor. -/
def exUnit : StoreUnitInfo := ⟨"unitA", "/src/a.c"⟩

/-- Specification-side closed form of a receiver-driven enumeration over
`l`: the run completes iff every element satisfies the receiver, and the
receiver is invoked exactly on the longest satisfying prefix followed by
the first failing element, if any. -/
def receiverRunSpec {α : Type} (recv : α → Bool) (l : List α) : Bool × List α :=
  (l.all recv, l.takeWhile recv ++ (l.dropWhile recv).take 1)

/-- The keys of the universe `U` not yet claimed by the accumulated key
list `ks`: the termination measure of the closure recursion. -/
def remainingKeys (U : List String) (ks : List String) : List String :=
  U.dedup.filter (fun u => decide (u ∉ ks))

/-! ### Helper lemmas about receiver-driven enumeration -/

/-- Closed form of `runReceiver`: the enumeration completes iff every
element satisfies the receiver, and the receiver is invoked on the longest
satisfying prefix plus the first failing element, if any. -/
theorem runReceiver_eq {α : Type} (recv : α → Bool) (l : List α) :
    runReceiver recv l = receiverRunSpec recv l := by
  unfold receiverRunSpec
  induction l with
  | nil => simp [runReceiver]
  | cons x xs ih =>
    by_cases hx : recv x = true
    · simp [runReceiver, hx, ih, List.takeWhile_cons, List.dropWhile_cons]
    · simp only [Bool.not_eq_true] at hx
      simp [runReceiver, hx, List.takeWhile_cons, List.dropWhile_cons]

/-- `runReceiver` over an appended list: run the first part; on early
termination stop there, otherwise continue with the second part. -/
theorem runReceiver_append {α : Type} (recv : α → Bool) (xs ys : List α) :
    runReceiver recv (xs ++ ys) =
      (if (runReceiver recv xs).1
       then ((runReceiver recv ys).1, (runReceiver recv xs).2 ++ (runReceiver recv ys).2)
       else runReceiver recv xs) := by
  induction xs with
  | nil => simp [runReceiver]
  | cons x xs ih =>
    by_cases hx : recv x = true
    · by_cases h1 : (runReceiver recv xs).1 = true
      · simp [runReceiver, hx, ih, h1]
      · simp only [Bool.not_eq_true] at h1
        simp [runReceiver, hx, ih, h1]
    · simp only [Bool.not_eq_true] at hx
      simp [runReceiver, hx]

/-- The filtering loop of the general class-hierarchy path is exactly a
plain receiver run over the occurrences admitted by `admitOccur`. -/
theorem runFiltered_eq (classSyms : List Symbol) (recv : SymbolOccurrence → Bool)
    (occs : List SymbolOccurrence) :
    runFiltered classSyms recv occs =
      runReceiver recv (occs.filter (admitOccur classSyms)) := by
  induction occs with
  | nil => simp [runFiltered, runReceiver]
  | cons o os ih =>
    by_cases ha : admitOccur classSyms o = true
    · by_cases hr : recv o = true
      · simp [runFiltered, List.filter_cons, ha, runReceiver, hr, ih]
      · simp only [Bool.not_eq_true] at hr
        simp [runFiltered, List.filter_cons, ha, runReceiver, hr]
    · simp only [Bool.not_eq_true] at ha
      simp [runFiltered, List.filter_cons, ha, ih]

/-- The base-method loop is a plain receiver run over the concatenation,
method by method, of the admitted `Call`-role occurrences. -/
theorem runBaseMethods_eq (idx : Index) (classSyms : List Symbol)
    (recv : SymbolOccurrence → Bool) (ms : List Symbol) :
    runBaseMethods idx classSyms recv ms =
      runReceiver recv
        (ms.flatMap (fun m =>
          (symOccsByUSR idx m.usr [SymbolRole.call]).filter (admitOccur classSyms))) := by
  induction ms with
  | nil => simp [runBaseMethods, runReceiver]
  | cons m ms ih =>
    rw [List.flatMap_cons, runReceiver_append]
    rw [runBaseMethods, runFiltered_eq]
    rcases h : runReceiver recv
      ((symOccsByUSR idx m.usr [SymbolRole.call]).filter (admitOccur classSyms)) with ⟨b, t⟩
    cases b
    · simp [h]
    · simp [h, ih]

/-- The protocol fast-path loop is a plain receiver run over the
concatenation, override by override, of the `Call`-role occurrences. -/
theorem runCallsForEach_eq (idx : Index) (recv : SymbolOccurrence → Bool)
    (os : List SymbolOccurrence) :
    runCallsForEach idx recv os =
      runReceiver recv
        (os.flatMap (fun o => symOccsByUSR idx o.symbol.usr [SymbolRole.call])) := by
  induction os with
  | nil => simp [runCallsForEach, runReceiver]
  | cons o os ih =>
    rw [List.flatMap_cons, runReceiver_append]
    rw [runCallsForEach]
    rcases h : runReceiver recv (symOccsByUSR idx o.symbol.usr [SymbolRole.call]) with ⟨b, t⟩
    cases b
    · simp [h]
    · simp [h, ih]

/-- Gluing lemma: whenever the dynamic phase equals a plain receiver run
over some fixed list `L2`, the whole of `foreachSymbolCallOccurrence` is a
plain receiver run over direct `Call` occurrences followed by `L2`. -/
theorem foreachSymbolCallOccurrence_glue (idx : Index) (callee : SymbolOccurrence)
    (recv : SymbolOccurrence → Bool) (L2 : List SymbolOccurrence)
    (h1 : callee.symbol.callable = true)
    (h2 : containsAnyRole callee.roles [SymbolRole.dynamic] = true)
    (hd : dispatchAfterRewrite idx callee recv (rewriteExtensions idx (clsSymsRaw callee)) =
      runReceiver recv L2) :
    foreachSymbolCallOccurrence idx callee recv =
      runReceiver recv (symOccsByUSR idx callee.symbol.usr [SymbolRole.call] ++ L2) := by
  rw [runReceiver_append]
  unfold foreachSymbolCallOccurrence
  simp only [h1, h2, if_true]
  rcases hD : runReceiver recv (symOccsByUSR idx callee.symbol.usr [SymbolRole.call]) with ⟨b, t⟩
  cases b
  · simp
  · simp [hd]

/-! ### Helper lemmas about the fueled closure recursion -/

/-- Filtering away a present element strictly shrinks a list. -/
theorem filter_length_lt {α : Type} (p : α → Bool) (l : List α) (x : α)
    (hx : x ∈ l) (hpx : p x = false) :
    (l.filter p).length < l.length := by
  induction l with
  | nil => cases hx
  | cons y ys ih =>
    rcases List.mem_cons.mp hx with hxy | hxs
    · subst hxy
      rw [List.filter_cons, hpx]
      simp only [Bool.false_eq_true, if_false]
      exact Nat.lt_succ_of_le (List.length_filter_le p ys)
    · by_cases hy : p y = true
      · rw [List.filter_cons, hy]
        simpa using Nat.succ_lt_succ (ih hxs)
      · simp only [Bool.not_eq_true] at hy
        rw [List.filter_cons, hy]
        simp only [Bool.false_eq_true, if_false]
        exact Nat.lt_succ_of_lt (ih hxs)

/-- Appending a fresh key from the universe strictly shrinks the
remaining-keys measure. -/
theorem remainingKeys_append_lt (U ks : List String) (k : String)
    (hkU : k ∈ U) (hk : k ∉ ks) :
    (remainingKeys U (ks ++ [k])).length < (remainingKeys U ks).length := by
  unfold remainingKeys
  have hsplit : U.dedup.filter (fun u => decide (u ∉ ks ++ [k])) =
      (U.dedup.filter (fun u => decide (u ∉ ks))).filter (fun u => decide (u ≠ k)) := by
    rw [List.filter_filter]
    apply List.filter_congr
    intro u _
    by_cases h1 : u ∈ ks <;> by_cases h2 : u = k <;>
      simp [List.mem_append, h1, h2]
  rw [hsplit]
  apply filter_length_lt _ _ k
  · rw [List.mem_filter]
    exact ⟨List.mem_dedup.mpr hkU, by simpa using hk⟩
  · simp

/-- The remaining-keys measure is antitone in the claimed key set. -/
theorem remainingKeys_length_mono (U ks ks2 : List String)
    (h : ∀ u, u ∈ ks → u ∈ ks2) :
    (remainingKeys U ks2).length ≤ (remainingKeys U ks).length := by
  apply List.Sublist.length_le
  apply List.monotone_filter_right
  intro a ha
  simp only [decide_eq_true_eq] at ha ⊢
  exact fun hc => ha (h a hc)

/-- Relation-preservation through an `Option`-valued left fold: if every
successful step of `f` relates its input state to its output state, the
whole fold relates the initial to the final state. -/
theorem optionFoldlM_rel {α β : Type} (R : β → β → Prop)
    (hrefl : ∀ b, R b b)
    (htrans : ∀ a b c, R a b → R b c → R a c)
    (f : β → α → Option β) :
    ∀ (l : List α) (b b2 : β),
      (∀ x ∈ l, ∀ a a2, f a x = some a2 → R a a2) →
      l.foldlM f b = some b2 → R b b2 := by
  intro l
  induction l with
  | nil =>
    intro b b2 _ h
    rw [List.foldlM_nil] at h
    cases h
    exact hrefl b
  | cons x xs ih =>
    intro b b2 hstep h
    rw [List.foldlM_cons] at h
    cases hf : f b x with
    | none => rw [hf] at h; simp at h
    | some b1 =>
      rw [hf] at h
      simp only [Option.bind_eq_bind, Option.some_bind] at h
      exact htrans b b1 b2 (hstep x (List.mem_cons_self x xs) b b1 hf)
        (ih b1 b2 (fun y hy => hstep y (List.mem_cons_of_mem x hy)) h)

/-- A successful closure run only ever appends: every element of the
starting accumulator is in the result. -/
theorem closureFuel_extend {σ τ : Type} (key : τ → String) (proj : τ → σ)
    (cand : σ → List τ) :
    ∀ (f : Nat) (s : σ) (acc res : List τ),
      closureFuel key proj cand f s acc = some res →
      ∀ x ∈ acc, x ∈ res := by
  intro f
  induction f with
  | zero => intro s acc res h; simp [closureFuel] at h
  | succ f ih =>
    intro s acc res h
    rw [closureFuel] at h
    refine optionFoldlM_rel (fun a a2 => ∀ x ∈ a, x ∈ a2)
      (fun b x hx => hx) (fun a b c h1 h2 x hx => h2 x (h1 x hx)) _
      (cand s) acc res ?_ h
    intro c _ a a2 hstep
    by_cases hmem : a.any (fun x => key x == key c) = true
    · rw [if_pos hmem] at hstep
      cases hstep
      exact fun x hx => hx
    · rw [if_neg hmem] at hstep
      exact fun x hx => ih (proj c) (a ++ [c]) a2 hstep x (List.mem_append_left _ hx)

/-- A successful closure run preserves key-distinctness of the
accumulator: a candidate is appended only when its key is absent. -/
theorem closureFuel_nodupKeys {σ τ : Type} (key : τ → String) (proj : τ → σ)
    (cand : σ → List τ) :
    ∀ (f : Nat) (s : σ) (acc res : List τ),
      closureFuel key proj cand f s acc = some res →
      (acc.map key).Nodup → (res.map key).Nodup := by
  intro f
  induction f with
  | zero => intro s acc res h; simp [closureFuel] at h
  | succ f ih =>
    intro s acc res h
    rw [closureFuel] at h
    refine optionFoldlM_rel (fun a a2 => (a.map key).Nodup → (a2.map key).Nodup)
      (fun b hb => hb) (fun a b c h1 h2 hb => h2 (h1 hb)) _
      (cand s) acc res ?_ h
    intro c _ a a2 hstep
    by_cases hmem : a.any (fun x => key x == key c) = true
    · rw [if_pos hmem] at hstep
      cases hstep
      exact fun hb => hb
    · rw [if_neg hmem] at hstep
      intro hb
      refine ih (proj c) (a ++ [c]) a2 hstep ?_
      have hkc : key c ∉ a.map key := by
        intro hcon
        apply hmem
        rw [List.any_eq_true]
        obtain ⟨x, hx, hxk⟩ := List.mem_map.mp hcon
        exact ⟨x, hx, by rw [hxk]; exact beq_self_eq_true _⟩
      have hnd : (a.map key ++ [key c]).Nodup := by
        rw [List.nodup_append_comm, List.singleton_append, List.nodup_cons]
        exact ⟨hkc, hb⟩
      simpa using hnd

/-- Every element of a successful closure result was either already in the
accumulator or is a candidate of some start, hence has its key inside the
candidate-key universe `U`. -/
theorem closureFuel_keys_bound {σ τ : Type} (key : τ → String) (proj : τ → σ)
    (cand : σ → List τ) (U : List String)
    (hU : ∀ s c, c ∈ cand s → key c ∈ U) :
    ∀ (f : Nat) (s : σ) (acc res : List τ),
      closureFuel key proj cand f s acc = some res →
      ∀ x ∈ res, x ∈ acc ∨ key x ∈ U := by
  intro f
  induction f with
  | zero => intro s acc res h; simp [closureFuel] at h
  | succ f ih =>
    intro s acc res h
    rw [closureFuel] at h
    refine optionFoldlM_rel (fun a a2 => ∀ x ∈ a2, x ∈ a ∨ key x ∈ U)
      (fun b x hx => Or.inl hx)
      (fun a b c h1 h2 x hx => by
        rcases h2 x hx with hxb | hk
        · exact h1 x hxb
        · exact Or.inr hk) _
      (cand s) acc res ?_ h
    intro c hc a a2 hstep
    by_cases hmem : a.any (fun x => key x == key c) = true
    · rw [if_pos hmem] at hstep
      cases hstep
      exact fun x hx => Or.inl hx
    · rw [if_neg hmem] at hstep
      intro x hx
      rcases ih (proj c) (a ++ [c]) a2 hstep x hx with hxa | hk
      · rcases List.mem_append.mp hxa with hxa2 | hxc
        · exact Or.inl hxa2
        · refine Or.inr ?_
          rw [List.mem_singleton.mp hxc]
          exact hU s c hc
      · exact Or.inr hk

/-- Every element of a successful closure result that was not already in
the accumulator is a candidate either of the top-level start or of some
element of the result: the closure only expands along candidate chains
rooted at the start. -/
theorem closureFuel_candidate_source {σ τ : Type} (key : τ → String) (proj : τ → σ)
    (cand : σ → List τ) :
    ∀ (f : Nat) (s : σ) (acc res : List τ),
      closureFuel key proj cand f s acc = some res →
      ∀ x ∈ res, x ∈ acc ∨
        ∃ y : σ, (y = s ∨ ∃ t ∈ res, y = proj t) ∧ x ∈ cand y := by
  intro f
  induction f with
  | zero => intro s acc res h; simp [closureFuel] at h
  | succ f ih =>
    intro s acc res h
    rw [closureFuel] at h
    refine (optionFoldlM_rel
      (fun a a2 => (∀ z ∈ a, z ∈ a2) ∧
        (∀ x ∈ a2, x ∈ a ∨
          ∃ y : σ, (y = s ∨ ∃ t ∈ a2, y = proj t) ∧ x ∈ cand y))
      (fun b => ⟨fun z hz => hz, fun x hx => Or.inl hx⟩)
      ?_ _ (cand s) acc res ?_ h).2
    · rintro a b c ⟨hab, hra⟩ ⟨hbc, hrb⟩
      refine ⟨fun z hz => hbc z (hab z hz), ?_⟩
      intro x hx
      rcases hrb x hx with hxb | ⟨y, hy, hxc⟩
      · rcases hra x hxb with hxa | ⟨y, hy, hxc⟩
        · exact Or.inl hxa
        · refine Or.inr ⟨y, ?_, hxc⟩
          rcases hy with rfl | ⟨t, ht, rfl⟩
          · exact Or.inl rfl
          · exact Or.inr ⟨t, hbc t ht, rfl⟩
      · refine Or.inr ⟨y, ?_, hxc⟩
        rcases hy with rfl | ⟨t, ht, rfl⟩
        · exact Or.inl rfl
        · exact Or.inr ⟨t, ht, rfl⟩
    · intro c hc a a2 hstep
      by_cases hmem : a.any (fun x => key x == key c) = true
      · rw [if_pos hmem] at hstep
        cases hstep
        exact ⟨fun z hz => hz, fun x hx => Or.inl hx⟩
      · rw [if_neg hmem] at hstep
        have hext := closureFuel_extend key proj cand f (proj c) (a ++ [c]) a2 hstep
        refine ⟨fun z hz => hext z (List.mem_append_left _ hz), ?_⟩
        intro x hx
        rcases ih (proj c) (a ++ [c]) a2 hstep x hx with hxac | ⟨y, hy, hxc2⟩
        · rcases List.mem_append.mp hxac with hxa | hxc1
          · exact Or.inl hxa
          · refine Or.inr ⟨s, Or.inl rfl, ?_⟩
            rw [List.mem_singleton.mp hxc1]
            exact hc
        · refine Or.inr ⟨y, ?_, hxc2⟩
          rcases hy with rfl | ⟨t, ht, rfl⟩
          · exact Or.inr ⟨c, hext c (List.mem_append_right _ (List.mem_singleton_self c)), rfl⟩
          · exact Or.inr ⟨t, ht, rfl⟩

/-- Fuel sufficiency: when the fuel exceeds the number of universe keys
not yet claimed by the accumulator, the closure recursion cannot run out,
because every recursion step claims a fresh universe key. -/
theorem closureFuel_isSome {σ τ : Type} (key : τ → String) (proj : τ → σ)
    (cand : σ → List τ) (U : List String)
    (hU : ∀ s c, c ∈ cand s → key c ∈ U) :
    ∀ (f : Nat) (s : σ) (acc : List τ),
      (remainingKeys U (acc.map key)).length < f →
      (closureFuel key proj cand f s acc).isSome = true := by
  intro f
  induction f with
  | zero => intro s acc h; exact absurd h (Nat.not_lt_zero _)
  | succ f ih =>
    intro s acc hlt
    rw [closureFuel]
    have main : ∀ (l : List τ), (∀ c ∈ l, key c ∈ U) →
        ∀ (a : List τ), (remainingKeys U (a.map key)).length ≤ f →
        (l.foldlM (fun (a : List τ) (c : τ) =>
          if a.any (fun x => key x == key c) then some a
          else closureFuel key proj cand f (proj c) (a ++ [c])) a).isSome = true := by
      intro l
      induction l with
      | nil => intro _ a _; rw [List.foldlM_nil]; rfl
      | cons c cs ihl =>
        intro hmem a hle
        simp only [List.foldlM_cons]
        by_cases hc : a.any (fun x => key x == key c) = true
        · rw [if_pos hc]
          simp only [Option.bind_eq_bind, Option.some_bind]
          exact ihl (fun y hy => hmem y (List.mem_cons_of_mem c hy)) a hle
        · rw [if_neg hc]
          have hkc : key c ∈ U := hmem c (List.mem_cons_self c cs)
          have hnot : key c ∉ a.map key := by
            intro hcon
            apply hc
            rw [List.any_eq_true]
            obtain ⟨x, hx, hxk⟩ := List.mem_map.mp hcon
            exact ⟨x, hx, by rw [hxk]; exact beq_self_eq_true _⟩
          have hlt2 : (remainingKeys U ((a ++ [c]).map key)).length < f := by
            have := remainingKeys_append_lt U (a.map key) (key c) hkc hnot
            rw [List.map_append] at *
            simpa using Nat.lt_of_lt_of_le (by simpa using this) hle
          have hsome := ih (proj c) (a ++ [c]) hlt2
          obtain ⟨a2, ha2⟩ := Option.isSome_iff_exists.mp hsome
          rw [ha2]
          simp only [Option.bind_eq_bind, Option.some_bind]
          refine ihl (fun y hy => hmem y (List.mem_cons_of_mem c hy)) a2 ?_
          have hext := closureFuel_extend key proj cand f (proj c) (a ++ [c]) a2 ha2
          have hmono : (remainingKeys U (a2.map key)).length ≤
              (remainingKeys U ((a ++ [c]).map key)).length := by
            apply remainingKeys_length_mono
            intro u hu
            obtain ⟨x, hx, hxk⟩ := List.mem_map.mp hu
            exact List.mem_map.mpr ⟨x, hext x hx, hxk⟩
          exact Nat.le_of_lt (Nat.lt_of_le_of_lt hmono hlt2)
    exact main (cand s) (fun c hc => hU s c hc) acc (Nat.lt_succ_iff.mp hlt)

/-- The candidate keys of the base-methods closure all lie in the
candidate universe of the index. -/
theorem candidatesFor_usr_mem (idx : Index) (sym : Symbol) :
    ∀ c ∈ candidatesFor idx sym, c.usr ∈ candUniverse idx := by
  intro c hc
  unfold candidatesFor at hc
  unfold candUniverse
  by_cases hk : (sym.kind == SymbolKind.instanceMethod) = true
  · rw [if_pos hk] at hc
    obtain ⟨o, ho, hco⟩ := List.mem_flatMap.mp hc
    have hoidx : o ∈ idx.occurrences := (List.mem_filter.mp ho).1
    unfold relatedSymbols at hco
    obtain ⟨rel, hrel, hrelc⟩ := List.mem_map.mp hco
    have hrel2 : rel ∈ o.relations := (List.mem_filter.mp hrel).1
    refine List.mem_flatMap.mpr ⟨o, hoidx, ?_⟩
    refine List.mem_cons_of_mem _ ?_
    exact List.mem_map.mpr ⟨rel, hrel2, by rw [hrelc]⟩
  · rw [if_neg hk] at hc
    obtain ⟨o, ho, hco⟩ := List.mem_map.mp hc
    have hoidx : o ∈ idx.occurrences := (List.mem_filter.mp ho).1
    refine List.mem_flatMap.mpr ⟨o, hoidx, ?_⟩
    rw [← hco]
    exact List.mem_cons_self _ _

/-- The candidate keys of the related-occurrence closure all lie in the
candidate universe of the index. -/
theorem relOccs_usr_mem (idx : Index) (roleSet : List SymbolRole) :
    ∀ (s : Symbol) (o : SymbolOccurrence),
      o ∈ relOccsByUSR idx s.usr roleSet → o.symbol.usr ∈ candUniverse idx := by
  intro s o ho
  have hoidx : o ∈ idx.occurrences := (List.mem_filter.mp ho).1
  exact List.mem_flatMap.mpr ⟨o, hoidx, List.mem_cons_self _ _⟩

/-! ### Claim theorems -/

/-- C1: in the general class-hierarchy path (callable callee, occurrence
role `Dynamic`, rewritten receiver-class set non-empty with non-protocol
first element), the receiver is invoked, after the direct phase, exactly on
the `Call`-role occurrences of each base-method USR that pass the filter —
role `Dynamic` and (no `RelationReceivedBy` role, or some related symbol
under `RelationReceivedBy` with USR in `ClassSyms`) — in enumeration
order, up to receiver-driven early termination; occurrences failing the
filter are skipped without invoking the receiver. -/
theorem c1_general_path_receiver_filter (idx : Index) (callee : SymbolOccurrence)
    (c : Symbol) (rest : List Symbol) (recv : SymbolOccurrence → Bool)
    (h1 : callee.symbol.callable = true)
    (h2 : containsAnyRole callee.roles [SymbolRole.dynamic] = true)
    (h3 : rewriteExtensions idx (clsSymsRaw callee) = c :: rest)
    (h4 : (c.kind == SymbolKind.protocol) = false) :
    foreachSymbolCallOccurrence idx callee recv =
      receiverRunSpec recv
        (symOccsByUSR idx callee.symbol.usr [SymbolRole.call] ++
          (getBaseMethodsOrClasses idx callee.symbol).flatMap (fun m =>
            (symOccsByUSR idx m.usr [SymbolRole.call]).filter
              (admitOccur (classSymsOf idx (c :: rest))))) := by
  rw [← runReceiver_eq]
  apply foreachSymbolCallOccurrence_glue idx callee recv _ h1 h2
  rw [h3]
  unfold dispatchAfterRewrite
  simp only [h4, Bool.false_eq_true, if_false]
  exact runBaseMethods_eq idx (classSymsOf idx (c :: rest)) recv
    (getBaseMethodsOrClasses idx callee.symbol)

/-- C1 witness: a dynamic call of `m` received by class `D` in the example
index satisfies all hypotheses, and the conclusion evaluates: the receiver
that always continues is invoked exactly on the three `Call` occurrences
of `m` (the base-method phase contributes nothing since `m` has no bases). -/
theorem c1_general_path_receiver_filter_witness :
    occB.symbol.callable = true ∧
    containsAnyRole occB.roles [SymbolRole.dynamic] = true ∧
    rewriteExtensions exIdx (clsSymsRaw occB) = dSym :: [] ∧
    ((dSym.kind == SymbolKind.protocol) = false) ∧
    foreachSymbolCallOccurrence exIdx occB (fun _ => true) =
      receiverRunSpec (fun _ => true)
        (symOccsByUSR exIdx occB.symbol.usr [SymbolRole.call] ++
          (getBaseMethodsOrClasses exIdx occB.symbol).flatMap (fun m =>
            (symOccsByUSR exIdx m.usr [SymbolRole.call]).filter
              (admitOccur (classSymsOf exIdx (dSym :: []))))) ∧
    foreachSymbolCallOccurrence exIdx occB (fun _ => true) = (true, [occA, occB, occC]) :=
  ⟨rfl, rfl, rfl, rfl,
   c1_general_path_receiver_filter exIdx occB dSym [] (fun _ => true) rfl rfl rfl rfl,
   by decide⟩

/-- C6: for a callable callee occurrence without role `Dynamic`, the
receiver is invoked exactly on the direct `Call`-role occurrences of the
callee's USR, in order; early termination yields `false`, completion
yields `true`, and nothing beyond the direct phase is enumerated. -/
theorem c6_static_only_direct_calls (idx : Index) (callee : SymbolOccurrence)
    (recv : SymbolOccurrence → Bool)
    (h1 : callee.symbol.callable = true)
    (h2 : containsAnyRole callee.roles [SymbolRole.dynamic] = false) :
    foreachSymbolCallOccurrence idx callee recv =
      receiverRunSpec recv (symOccsByUSR idx callee.symbol.usr [SymbolRole.call]) := by
  rw [← runReceiver_eq]
  unfold foreachSymbolCallOccurrence
  simp only [h1, h2, if_true, Bool.false_eq_true, if_false]
  rcases hD : runReceiver recv (symOccsByUSR idx callee.symbol.usr [SymbolRole.call]) with ⟨b, t⟩
  cases b <;> simp

/-- C6 witness: the static call occurrence of `m` in the example index
satisfies the hypotheses, and with the always-continue receiver the
enumeration yields exactly the three `Call` occurrences of `m`. -/
theorem c6_static_only_direct_calls_witness :
    occA.symbol.callable = true ∧
    containsAnyRole occA.roles [SymbolRole.dynamic] = false ∧
    foreachSymbolCallOccurrence exIdx occA (fun _ => true) =
      receiverRunSpec (fun _ => true) (symOccsByUSR exIdx occA.symbol.usr [SymbolRole.call]) ∧
    foreachSymbolCallOccurrence exIdx occA (fun _ => true) = (true, [occA, occB, occC]) :=
  ⟨rfl, rfl, c6_static_only_direct_calls exIdx occA (fun _ => true) rfl rfl, by decide⟩

/-- C7: a callee occurrence whose symbol is not callable makes
`foreachSymbolCallOccurrence` return `false` immediately, with the
receiver never invoked and no dependence on the index state. -/
theorem c7_not_callable_returns_false (idx : Index) (callee : SymbolOccurrence)
    (recv : SymbolOccurrence → Bool)
    (h : callee.symbol.callable = false) :
    foreachSymbolCallOccurrence idx callee recv = (false, []) := by
  unfold foreachSymbolCallOccurrence
  simp [h]

/-- C7 witness: the occurrence of the non-callable symbol `g` returns
`(false, [])` on the example index. -/
theorem c7_not_callable_returns_false_witness :
    occG.symbol.callable = false ∧
    foreachSymbolCallOccurrence exIdx occG (fun _ => true) = (false, []) :=
  ⟨rfl, c7_not_callable_returns_false exIdx occG (fun _ => true) rfl⟩

/-- C10: for a callable, `Dynamic` callee occurrence whose receiver-class
set is empty after extension rewriting, the operation is exactly the
direct-call receiver run: no protocol fast-path and no base-method
enumeration happen, and the operation returns `true` whenever the receiver
never terminates the enumeration. -/
theorem c10_empty_receiver_class_set (idx : Index) (callee : SymbolOccurrence)
    (recv : SymbolOccurrence → Bool)
    (h1 : callee.symbol.callable = true)
    (h2 : containsAnyRole callee.roles [SymbolRole.dynamic] = true)
    (h3 : rewriteExtensions idx (clsSymsRaw callee) = []) :
    foreachSymbolCallOccurrence idx callee recv =
      receiverRunSpec recv (symOccsByUSR idx callee.symbol.usr [SymbolRole.call]) := by
  rw [← runReceiver_eq]
  have hglue := foreachSymbolCallOccurrence_glue idx callee recv [] h1 h2 (by
    rw [h3]; rfl)
  simpa using hglue

/-- C10 witness: a dynamic call occurrence of `m` with no receiver
relation has an empty receiver-class set; the example index yields exactly
the direct `Call` occurrences of `m` and returns `true`. -/
theorem c10_empty_receiver_class_set_witness :
    occNoRecv.symbol.callable = true ∧
    containsAnyRole occNoRecv.roles [SymbolRole.dynamic] = true ∧
    rewriteExtensions exIdx (clsSymsRaw occNoRecv) = [] ∧
    foreachSymbolCallOccurrence exIdx occNoRecv (fun _ => true) =
      receiverRunSpec (fun _ => true) (symOccsByUSR exIdx occNoRecv.symbol.usr [SymbolRole.call]) ∧
    foreachSymbolCallOccurrence exIdx occNoRecv (fun _ => true) = (true, [occA, occB, occC]) :=
  ⟨rfl, rfl, rfl,
   c10_empty_receiver_class_set exIdx occNoRecv (fun _ => true) rfl rfl rfl, by decide⟩

/-- C2: in the protocol fast-path (callable callee, occurrence role
`Dynamic`, rewritten receiver-class set non-empty with protocol first
element), the operation is a plain receiver run over the direct `Call`
occurrences followed, override by override of the `RelationOverrideOf`
transitive closure of the callee's symbol, by each override's `Call`
occurrences: early receiver termination yields `false`, completion yields
`true`, and the class-hierarchy walk never runs.  The override closure is
deduplicated by USR. -/
theorem c2_protocol_fast_path (idx : Index) (callee : SymbolOccurrence)
    (c : Symbol) (rest : List Symbol) (recv : SymbolOccurrence → Bool)
    (h1 : callee.symbol.callable = true)
    (h2 : containsAnyRole callee.roles [SymbolRole.dynamic] = true)
    (h3 : rewriteExtensions idx (clsSymsRaw callee) = c :: rest)
    (h4 : (c.kind == SymbolKind.protocol) = true) :
    foreachSymbolCallOccurrence idx callee recv =
      receiverRunSpec recv
        (symOccsByUSR idx callee.symbol.usr [SymbolRole.call] ++
          (getAllRelatedOccurs idx [SymbolRole.relationOverrideOf] callee.symbol).flatMap
            (fun o => symOccsByUSR idx o.symbol.usr [SymbolRole.call])) ∧
    ((getAllRelatedOccurs idx [SymbolRole.relationOverrideOf] callee.symbol).map
      (fun o => o.symbol.usr)).Nodup := by
  constructor
  · rw [← runReceiver_eq]
    apply foreachSymbolCallOccurrence_glue idx callee recv _ h1 h2
    rw [h3]
    unfold dispatchAfterRewrite
    simp only [h4, if_true]
    exact runCallsForEach_eq idx recv _
  · unfold getAllRelatedOccurs getAllRelatedOccursFuel
    cases h : closureFuel (fun o => o.symbol.usr) (fun o => o.symbol)
      (fun s => relOccsByUSR idx s.usr [SymbolRole.relationOverrideOf])
      (bound idx) callee.symbol [] with
    | none => simp
    | some res =>
      simp only [Option.getD_some]
      exact closureFuel_nodupKeys _ _ _ (bound idx) callee.symbol [] res h (by simp)

/-- C2 witness: the dynamic call of `m` received by protocol `P` in the
example index takes the fast path; `m1` overrides `m`, so the receiver
sees the three `Call` occurrences of `m` and then the `Call` occurrence of
`m1`. -/
theorem c2_protocol_fast_path_witness :
    occC.symbol.callable = true ∧
    containsAnyRole occC.roles [SymbolRole.dynamic] = true ∧
    rewriteExtensions exIdx (clsSymsRaw occC) = pSym :: [] ∧
    ((pSym.kind == SymbolKind.protocol) = true) ∧
    (foreachSymbolCallOccurrence exIdx occC (fun _ => true) =
      receiverRunSpec (fun _ => true)
        (symOccsByUSR exIdx occC.symbol.usr [SymbolRole.call] ++
          (getAllRelatedOccurs exIdx [SymbolRole.relationOverrideOf] occC.symbol).flatMap
            (fun o => symOccsByUSR exIdx o.symbol.usr [SymbolRole.call])) ∧
      ((getAllRelatedOccurs exIdx [SymbolRole.relationOverrideOf] occC.symbol).map
        (fun o => o.symbol.usr)).Nodup) ∧
    foreachSymbolCallOccurrence exIdx occC (fun _ => true) = (true, [occA, occB, occC, occD]) :=
  ⟨rfl, rfl, rfl, rfl,
   c2_protocol_fast_path exIdx occC pSym [] (fun _ => true) rfl rfl rfl rfl, by decide⟩

/-- C3: extension rewriting replaces, position by position, each symbol of
the receiver-class set of kind `Extension` by the symbol of the first
occurrence related to it under `RelationExtendedBy` (the enumeration stops
after that first hit; with no hit the symbol is kept, and non-extensions
are untouched), and the computation following a successful direct phase of
`foreachSymbolCallOccurrence` (the protocol test and the `ClassSyms`
union) runs on the rewritten list. -/
theorem c3_extension_rewriting (idx : Index) :
    (∀ cls : List Symbol, rewriteExtensions idx cls = cls.map (rewriteOne idx)) ∧
    (∀ s : Symbol, rewriteOne idx s =
      (if s.kind == SymbolKind.extension then
        (match (relOccsByUSR idx s.usr [SymbolRole.relationExtendedBy]).head? with
         | none => s
         | some o => o.symbol)
       else s)) ∧
    (∀ (callee : SymbolOccurrence) (recv : SymbolOccurrence → Bool)
       (t1 : List SymbolOccurrence),
      callee.symbol.callable = true →
      containsAnyRole callee.roles [SymbolRole.dynamic] = true →
      runReceiver recv (symOccsByUSR idx callee.symbol.usr [SymbolRole.call]) = (true, t1) →
      foreachSymbolCallOccurrence idx callee recv =
        ((dispatchAfterRewrite idx callee recv ((clsSymsRaw callee).map (rewriteOne idx))).1,
         t1 ++ (dispatchAfterRewrite idx callee recv ((clsSymsRaw callee).map (rewriteOne idx))).2)) := by
  have hmap : ∀ cls : List Symbol, rewriteExtensions idx cls = cls.map (rewriteOne idx) := by
    intro cls
    induction cls with
    | nil => rfl
    | cons s rest ih => simp [rewriteExtensions, ih]
  refine ⟨hmap, ?_, ?_⟩
  · intro s
    by_cases hk : (s.kind == SymbolKind.extension) = true
    · rw [rewriteOne, if_pos hk, if_pos hk]
      cases hl : relOccsByUSR idx s.usr [SymbolRole.relationExtendedBy] with
      | nil => simp [runReceiver]
      | cons o os => simp [runReceiver]
    · rw [rewriteOne, if_neg hk, if_neg hk]
  · intro callee recv t1 h1 h2 hrun
    unfold foreachSymbolCallOccurrence
    simp only [h1, h2, if_true, hrun, hmap]

/-- C3 witness: in the extension example index, the extension symbol is
rewritten to the extended type `T`; the map characterization and the
downstream-usage equation hold at the dynamic call of `m` in the main
example index. -/
theorem c3_extension_rewriting_witness :
    rewriteExtensions extIdx [extSym] = [extSym].map (rewriteOne extIdx) ∧
    rewriteOne extIdx extSym = tSym ∧
    foreachSymbolCallOccurrence exIdx occB (fun _ => true) =
      ((dispatchAfterRewrite exIdx occB (fun _ => true) ((clsSymsRaw occB).map (rewriteOne exIdx))).1,
       [occA, occB, occC] ++
         (dispatchAfterRewrite exIdx occB (fun _ => true) ((clsSymsRaw occB).map (rewriteOne exIdx))).2) :=
  ⟨(c3_extension_rewriting extIdx).1 [extSym], by decide,
   (c3_extension_rewriting exIdx).2.2 occB (fun _ => true) [occA, occB, occC] rfl rfl (by decide)⟩

/-- C4 counterexample: with a two-element cycle in the override relation
(`m` overrides `m1` and `m1` overrides `m`), `m` itself appears in
`getBaseMethodsOrClasses` of `m`, refuting the claim's "for every state,
including cyclic ones" self-exclusion. -/
theorem c4_self_membership_counterexample :
    mSym.usr ∈ (getBaseMethodsOrClasses cycIdx mSym).map (fun s => s.usr) := by
  decide

/-- C4 (amended): the result of `getBaseMethodsOrClasses` never contains
two symbols with equal USR, for every index state including cyclic ones;
and the queried symbol itself is absent from the result whenever neither
its own candidates nor the candidates of any member of the returned
closure carry its USR — that is, whenever the override/base candidate
chains expanding from `s` never lead back to `s`'s USR, which holds in
particular for every acyclic index, including ones that mention `s`
elsewhere (for example as the override target of other methods). -/
theorem c4_nodup_and_conditional_self_exclusion (idx : Index) (s : Symbol) :
    ((getBaseMethodsOrClasses idx s).map (fun x => x.usr)).Nodup ∧
    ((∀ c ∈ candidatesFor idx s, c.usr ≠ s.usr) →
     (∀ t ∈ getBaseMethodsOrClasses idx s, ∀ c ∈ candidatesFor idx t, c.usr ≠ s.usr) →
      s.usr ∉ (getBaseMethodsOrClasses idx s).map (fun x => x.usr)) := by
  constructor
  · unfold getBaseMethodsOrClasses getBaseMethodsOrClassesFuel
    cases h : closureFuel (fun s => s.usr) (fun s => s) (candidatesFor idx)
      (bound idx) s [] with
    | none => simp
    | some res =>
      simp only [Option.getD_some]
      exact closureFuel_nodupKeys _ _ _ (bound idx) s [] res h (by simp)
  · intro h1 h2 hcon
    unfold getBaseMethodsOrClasses getBaseMethodsOrClassesFuel at hcon h2
    cases h : closureFuel (fun s => s.usr) (fun s => s) (candidatesFor idx)
      (bound idx) s [] with
    | none => rw [h] at hcon; simp at hcon
    | some res =>
      rw [h] at hcon h2
      simp only [Option.getD_some] at hcon h2
      obtain ⟨x, hx, hxu⟩ := List.mem_map.mp hcon
      rcases closureFuel_candidate_source _ _ _ (bound idx) s [] res h x hx
        with hxe | ⟨y, hy, hxc⟩
      · exact absurd hxe (List.not_mem_nil x)
      · rcases hy with rfl | ⟨t, ht, hyt⟩
        · exact h1 x hxc hxu
        · have hyt2 : y = t := hyt
          rw [hyt2] at hxc
          exact h2 t ht x hxc hxu

/-- C4 witness: in the acyclic chain index (`m` overrides `m1` overrides
`m2`, and `m3` overrides `m`), the closure of `m` is the non-empty
`[m1, m2]`, no candidate along it carries `m`'s USR even though the index
mentions `m` as an override target of `m3`, and `m` itself is excluded. -/
theorem c4_nodup_and_conditional_self_exclusion_witness :
    (∀ c ∈ candidatesFor chainIdx mSym, c.usr ≠ mSym.usr) ∧
    (∀ t ∈ getBaseMethodsOrClasses chainIdx mSym,
      ∀ c ∈ candidatesFor chainIdx t, c.usr ≠ mSym.usr) ∧
    getBaseMethodsOrClasses chainIdx mSym = [m1Sym, m2Sym] ∧
    mSym.usr ∉ (getBaseMethodsOrClasses chainIdx mSym).map (fun x => x.usr) :=
  ⟨by decide, by decide, by decide,
   (c4_nodup_and_conditional_self_exclusion chainIdx mSym).2 (by decide) (by decide)⟩

/-- C5: with fuel `bound idx` (one more than the number of distinct
candidate USRs of the finite index), both transitive-closure subroutines
complete for every start symbol, every role set and every accumulator —
including indexes whose override/base relations contain cycles — because
a candidate is appended and recursed into only when no symbol with its USR
is already accumulated. -/
theorem c5_closure_subroutines_terminate (idx : Index) (sym : Symbol)
    (accS : List Symbol) (roleSet : List SymbolRole)
    (accO : List SymbolOccurrence) :
    (getBaseMethodsOrClassesFuel idx (bound idx) sym accS).isSome = true ∧
    (getAllRelatedOccursFuel idx roleSet (bound idx) sym accO).isSome = true := by
  constructor
  · unfold getBaseMethodsOrClassesFuel
    apply closureFuel_isSome _ _ _ (candUniverse idx)
      (fun s c hc => candidatesFor_usr_mem idx s c hc)
    unfold bound
    exact Nat.lt_succ_of_le (List.length_filter_le _ _)
  · unfold getAllRelatedOccursFuel
    apply closureFuel_isSome _ _ _ (candUniverse idx)
      (fun s o ho => relOccs_usr_mem idx roleSet s o ho)
    unfold bound
    exact Nat.lt_succ_of_le (List.length_filter_le _ _)

/-- C8: with a user delegate present, a synchronous `unitIsOutOfDate`
invokes the wrapped delegate inline before returning and leaves the serial
work queue untouched, while an asynchronous one appends the event (with
its arguments captured by value) to the queue and invokes nothing
inline. -/
theorem c8_async_delegate_unit_out_of_date (d : AsyncIndexDelegate)
    (u : StoreUnitInfo) (t : Nat) (hint : OutOfDateTriggerHint)
    (hd : d.hasOther = true) :
    d.unitIsOutOfDate u t hint true = ([⟨u, t, hint, true⟩], d) ∧
    d.unitIsOutOfDate u t hint false =
      ([], { d with queue := d.queue ++ [⟨u, t, hint, false⟩] }) := by
  unfold AsyncIndexDelegate.unitIsOutOfDate
  simp [hd]

/-- C8 witness: the example wrapper with a user delegate present behaves as
stated on a concrete event. -/
theorem c8_async_delegate_unit_out_of_date_witness :
    exDelegate.hasOther = true ∧
    exDelegate.unitIsOutOfDate exUnit 5 exHint true = ([⟨exUnit, 5, exHint, true⟩], exDelegate) ∧
    exDelegate.unitIsOutOfDate exUnit 5 exHint false =
      ([], { exDelegate with queue := exDelegate.queue ++ [⟨exUnit, 5, exHint, false⟩] }) :=
  ⟨rfl, c8_async_delegate_unit_out_of_date exDelegate exUnit 5 exHint rfl⟩

/-- C9: two path spellings with the same canonical path are
indistinguishable to every path-canonicalizing facade operation, because
each canonicalizes its argument before forwarding to the path sub-index. -/
theorem c9_path_spelling_invariance (pi : FilePathIndex) (p1 p2 : String)
    (h : pi.getCanonicalPath p1 = pi.getCanonicalPath p2) :
    isKnownFile pi p1 = isKnownFile pi p2 ∧
    (∀ recv : StoreUnitInfo → Bool,
      foreachMainUnitContainingFile pi p1 recv = foreachMainUnitContainingFile pi p2 recv) ∧
    (∀ recv : String × Nat → Bool,
      foreachFileIncludingFile pi p1 recv = foreachFileIncludingFile pi p2 recv) ∧
    (∀ recv : String × Nat → Bool,
      foreachFileIncludedByFile pi p1 recv = foreachFileIncludedByFile pi p2 recv) := by
  unfold isKnownFile foreachMainUnitContainingFile foreachFileIncludingFile
    foreachFileIncludedByFile
  rw [h]
  exact ⟨rfl, fun _ => rfl, fun _ => rfl, fun _ => rfl⟩

/-- C9 witness: two spellings of the same file in the example path index
agree on `isKnownFile` (and the enumerations). -/
theorem c9_path_spelling_invariance_witness :
    exPathIndex.getCanonicalPath "a.h" = exPathIndex.getCanonicalPath "./a.h" ∧
    isKnownFile exPathIndex "a.h" = isKnownFile exPathIndex "./a.h" ∧
    isKnownFile exPathIndex "a.h" = true :=
  ⟨rfl, (c9_path_spelling_invariance exPathIndex "a.h" "./a.h" rfl).1, by decide⟩

end IndexStoreDB
